import Mathlib

/-!
# Verification of libdhcore's hashing and virtual file-I/O layer

Shallow embedding of `src/core/hash.c` and `src/core/file-io.c`.
Byte strings are `List Nat` (each element a byte value); 32-bit unsigned
arithmetic is `Nat` reduced modulo `2 ^ 32` at every operation that can
overflow, and `size_t` arithmetic is reduced modulo `2 ^ 64`.
-/

namespace Dhcore

/-- Truncation to a 32-bit unsigned value (C `uint`). -/
def u32 (n : Nat) : Nat := n % 4294967296

/-- `HSEED` from hash.c: the fixed default seed used by `hash_str`. -/
def HSEED : Nat := 98424

/-- `HASH_M` from hash.c: the MurmurHash2 mixing constant `0x5bd1e995`. -/
def HASH_M : Nat := 0x5bd1e995

/-- The `MMIX(h, k)` macro from hash.c:
`k *= M; k ^= k >> 24; k *= M; h *= M; h ^= k` on 32-bit values;
returns the new `h`. -/
def MMIX (h k : Nat) : Nat :=
  let k1 := u32 (k * HASH_M)
  let k2 := k1 ^^^ (k1 >>> 24)
  let k3 := u32 (k2 * HASH_M)
  let h1 := u32 (h * HASH_M)
  h1 ^^^ k3

/-- `rotl32` from hash.c: `(x << r) | (x >> (32 - r))` on `uint`. -/
def rotl32 (x r : Nat) : Nat :=
  u32 (x <<< r) ||| (x >>> (32 - r))

/-- `fmix32` from hash.c: the MurmurHash3 finalization mix. -/
def fmix32 (h : Nat) : Nat :=
  let h1 := h ^^^ (h >>> 16)
  let h2 := u32 (h1 * 0x85ebca6b)
  let h3 := h2 ^^^ (h2 >>> 13)
  let h4 := u32 (h3 * 0xc2b2ae35)
  h4 ^^^ (h4 >>> 16)

/-- Little-endian load of a 32-bit word from four bytes, as done by
`getblock32` in `hash_murmur32`'s body loop (byte 0 is least significant). -/
def le32 (b0 b1 b2 b3 : Nat) : Nat :=
  b0 ||| (b1 <<< 8) ||| (b2 <<< 16) ||| (b3 <<< 24)

/-- The block loop of `hash_murmur32` (hash.c lines 104-115): consume the
input four bytes at a time, mixing each 32-bit little-endian block into `h1`;
returns the updated `h1` together with the remaining tail (fewer than 4
bytes). -/
def murmur3_body (h : Nat) : List Nat → Nat × List Nat
  | b0 :: b1 :: b2 :: b3 :: rest =>
    let k1 := u32 (le32 b0 b1 b2 b3 * 0xcc9e2d51)
    let k2 := rotl32 k1 15
    let k3 := u32 (k2 * 0x1b873593)
    let h1 := h ^^^ k3
    let h2 := rotl32 h1 13
    murmur3_body (u32 (h2 * 5 + 0xe6546b64)) rest
  | l => (h, l)

/-- The tail switch of `hash_murmur32` (hash.c lines 117-124): mix the final
1-3 bytes into `h1`; with an empty tail `h1` is unchanged. -/
def murmur3_tail (h : Nat) (tl : List Nat) : Nat :=
  let k : Nat :=
    match tl with
    | [t0] => t0
    | [t0, t1] => (t1 <<< 8) ^^^ t0
    | [t0, t1, t2] => (t2 <<< 16) ^^^ ((t1 <<< 8) ^^^ t0)
    | _ => 0
  match tl with
  | [] => h
  | _ =>
    let k1 := u32 (k * 0xcc9e2d51)
    let k2 := rotl32 k1 15
    let k3 := u32 (k2 * 0x1b873593)
    h ^^^ k3

/-- `hash_murmur32` from hash.c (MurmurHash3 x86_32): block loop, tail
switch, then the finalization `h1 ^= size; h1 = fmix32(h1)`. -/
def hash_murmur32 (data : List Nat) (seed : Nat) : Nat :=
  let bt := murmur3_body (u32 seed) data
  let h1 := murmur3_tail bt.1 bt.2
  fmix32 (h1 ^^^ u32 data.length)

/-- `hash_str` from hash.c: `hash_murmur32` over the bytes of the string
with the fixed seed `HSEED`. -/
def hash_str (data : List Nat) : Nat := hash_murmur32 data HSEED

/-- `struct hash_incr`: the running state of the incremental
(MurmurHash2A-style) hash.  The struct declaration lives in `dhcore/hash.h`
(not under src/); its fields are read off from their uses in hash.c:
`hash` (accumulator), `size` (total byte count, a 32-bit `uint` when mixed
at the end), `tail` (partial pending word), `cnt` (bytes pending in
`tail`, 0-3). -/
structure hash_incr where
  hash : Nat
  size : Nat
  tail : Nat
  cnt : Nat
  deriving Repr, DecidableEq

/-- `hash_murmurincr_begin` from hash.c. -/
def hash_murmurincr_begin (seed : Nat) : hash_incr :=
  { hash := u32 seed, size := 0, tail := 0, cnt := 0 }

/-- One byte fed through the body of `hash_mixtail`'s loop (hash.c lines
332-343): or the byte into `tail` at position `cnt`, and when a full word
has accumulated, mix it into `hash` and reset `tail`/`cnt`. -/
def incrStep (h : hash_incr) (b : Nat) : hash_incr :=
  let tail := h.tail ||| (b <<< (h.cnt * 8))
  let cnt := h.cnt + 1
  if cnt = 4 then
    { h with hash := MMIX h.hash tail, tail := 0, cnt := 0 }
  else
    { h with tail := tail, cnt := cnt }

/-- `hash_mixtail` from hash.c: consume bytes while
`size && (size < 4 || cnt)`, feeding each into the pending tail word;
returns the updated state and the unconsumed bytes. -/
def hash_mixtail (h : hash_incr) : List Nat → hash_incr × List Nat
  | [] => (h, [])
  | b :: rest =>
    if rest.length + 1 < 4 ∨ h.cnt ≠ 0 then hash_mixtail (incrStep h b) rest
    else (h, b :: rest)

/-- The main `while (size >= 4)` loop of `hash_murmurincr_add`: read a
little-endian word and `MMIX` it into the hash. -/
def incrBlocks (h : hash_incr) : List Nat → hash_incr × List Nat
  | b0 :: b1 :: b2 :: b3 :: rest =>
    incrBlocks { h with hash := MMIX h.hash (le32 b0 b1 b2 b3) } rest
  | l => (h, l)

/-- `hash_murmurincr_add` from hash.c: bump `size`, flush the pending tail,
consume whole words, then stash the remaining bytes in the tail. -/
def hash_murmurincr_add (h : hash_incr) (data : List Nat) : hash_incr :=
  let h0 : hash_incr := { h with size := h.size + data.length }
  let m1 := hash_mixtail h0 data
  let m2 := incrBlocks m1.1 m1.2
  (hash_mixtail m2.1 m2.2).1

/-- `hash_murmurincr_end` from hash.c: mix in the pending tail and the total
size, then apply the MurmurHash2 final avalanche. -/
def hash_murmurincr_end (h : hash_incr) : Nat :=
  let h1 := MMIX h.hash h.tail
  let h2 := MMIX h1 (u32 h.size)
  let h3 := h2 ^^^ (h2 >>> 13)
  let h4 := u32 (h3 * HASH_M)
  h4 ^^^ (h4 >>> 15)

/-- Run the whole incremental interface: `begin seed`, one `add` per chunk
in order, then `end`. -/
def hash_incr_run (seed : Nat) (chunks : List (List Nat)) : Nat :=
  hash_murmurincr_end (chunks.foldl hash_murmurincr_add (hash_murmurincr_begin seed))

/-- Well-formedness of an incremental-hash state: fewer than four bytes are
pending, and when none are pending the partial word is zero.  Holds for
`hash_murmurincr_begin` and is preserved by `hash_murmurincr_add`. -/
def Inv (h : hash_incr) : Prop := h.cnt < 4 ∧ (h.cnt = 0 → h.tail = 0)

/-! ## Memory-backed files (file-io.c) -/

/-- `MEM_BLOCK_SIZE` from file-io.c: the fixed growth block, 4096 bytes. -/
def MEM_BLOCK_SIZE : Nat := 4096

/-- The state of one memory-backed file: the `size` field of
`struct file_header` together with `struct mem_file`'s payload fields
(`buffer`, `offset`, `max_size`).  A `none` buffer models a NULL pointer;
`some bytes` models an allocation holding those bytes.  The `path`, `mode`
and allocator bookkeeping fields carry no behaviour for the properties
below and are omitted. -/
structure MemFile where
  size : Nat
  buffer : Option (List Nat)
  offset : Nat
  max_size : Nat
  deriving Repr, DecidableEq

/-- C `realloc` semantics for a grow: the first `min(old, new)` bytes are
preserved; the freshly allocated region is unspecified (modelled as zero
bytes; no operation below observes it without writing it first). -/
def reallocBuf (buf : Option (List Nat)) (newsz : Nat) : List Nat :=
  (buf.getD []).take newsz ++ List.replicate (newsz - (buf.getD []).length) 0

/-- `memcpy(buffer + off, data, data.length)` on a byte-list buffer. -/
def memcpyAt (buf : List Nat) (off : Nat) (data : List Nat) : List Nat :=
  buf.take off ++ data ++ buf.drop (off + data.length)

/-- The tail of `fio_writemem` after the (possible) grow: update
`header->size` when the write extends past the logical end, `memcpy` the
payload at the cursor, advance the cursor, and return `items_cnt`. -/
def finishWrite (f : MemFile) (data : List Nat) (write_sz items_cnt : Nat) : MemFile × Nat :=
  let f1 := if f.offset + write_sz > f.size then { f with size := f.offset + write_sz } else f
  ({ f1 with
      buffer := some (memcpyAt (f1.buffer.getD []) f1.offset (data.take write_sz)),
      offset := f1.offset + write_sz }, items_cnt)

/-- `fio_writemem` from file-io.c (lines 662-690).  `rok` says whether the
`A_REALLOC` call succeeds; on failure the C code has already overwritten
`fdata->buffer` with `A_REALLOC`'s NULL result (so the old pointer is gone)
and returns 0 before touching `size` or `offset`. -/
def fio_writemem (f : MemFile) (data : List Nat) (item_size items_cnt : Nat)
    (rok : Bool) : MemFile × Nat :=
  let write_sz := item_size * items_cnt
  if write_sz + f.offset > f.max_size then
    let grow_sz := write_sz + f.offset - f.max_size
    let expand_sz := (grow_sz / MEM_BLOCK_SIZE + 1) * MEM_BLOCK_SIZE
    if rok then
      finishWrite
        { f with buffer := some (reallocBuf f.buffer (expand_sz + f.max_size)),
                 max_size := f.max_size + expand_sz } data write_sz items_cnt
    else
      ({ f with buffer := none }, 0)
  else
    finishWrite f data write_sz items_cnt

/-- `fio_readmem` from file-io.c (lines 646-660): clamp the requested byte
count to what remains before `size`, round down to whole items, copy,
advance; returns the new state, the bytes copied, and the item count
`read_sz / item_size`. -/
def fio_readmem (f : MemFile) (item_size items_cnt : Nat) : MemFile × List Nat × Nat :=
  let read_sz := item_size * items_cnt
  let rsz := if read_sz + f.offset > f.size then
      f.size - f.offset - (f.size - f.offset) % item_size
    else read_sz
  if rsz ≠ 0 then
    ({ f with offset := f.offset + rsz },
      ((f.buffer.getD []).drop f.offset).take rsz, rsz / item_size)
  else
    (f, [], rsz / item_size)

/-- `enum seek_mode`: `SEEK_MODE_CUR`, `SEEK_MODE_START`, `SEEK_MODE_END`. -/
inductive SeekMode where
  | cur
  | start
  | end_
  deriving Repr, DecidableEq

/-- C `size_t` conversion: reduce a (possibly negative) integer mod 2^64. -/
def szwrap (i : Int) : Nat := (i % (18446744073709551616 : Int)).toNat

/-- Modelled from the spec: `clampsz` (numeric.h is not under src/) clamps
a `size_t` value into `[mn, mx]`; section 4.3 says the seek result "is
clamped into [0, size]". -/
def clampsz (n mn mx : Nat) : Nat := if n < mn then mn else if n > mx then mx else n

/-- `fio_seek` from file-io.c (lines 586-618), memory branch: `CUR` adds
the `int` offset to the `size_t` cursor, `START` assigns it, `END` assigns
`header->size - offset`; all in wrapping `size_t` arithmetic, then the
cursor is clamped into `[0, header->size]` by `clampsz`. -/
def fio_seek (f : MemFile) (mode : SeekMode) (off : Int) : MemFile :=
  let o : Nat :=
    match mode with
    | SeekMode.cur => szwrap ((f.offset : Int) + off)
    | SeekMode.start => szwrap off
    | SeekMode.end_ => szwrap ((f.size : Int) - off)
  { f with offset := clampsz o 0 f.size }

/-- `fio_createmem` from file-io.c (lines 324-355): a fresh writable memory
file with one `MEM_BLOCK_SIZE` block allocated (contents unspecified,
modelled as zeros), `size = 0`, cursor at 0. -/
def fio_createmem : MemFile :=
  { size := 0, buffer := some (List.replicate MEM_BLOCK_SIZE 0), offset := 0,
    max_size := MEM_BLOCK_SIZE }

/-- `fio_detachmem` from file-io.c (lines 464-480): with a live buffer,
return it together with `header->size` and zero the `mem_file` payload
(`buffer = NULL`, `offset = 0`, `max_size = 0`; `header->size` is not
touched); with a NULL buffer return NULL and leave the state alone. -/
def fio_detachmem (f : MemFile) : Option (List Nat × Nat) × MemFile :=
  match f.buffer with
  | none => (none, f)
  | some buf => (some (buf, f.size), { f with buffer := none, offset := 0, max_size := 0 })

/-- `fio_close` from file-io.c (lines 562-583), memory branch: `A_FREE` the
byte buffer iff one is attached (the returned boolean reports whether that
free ran), then hand the pooled record back with `fio_free_membuff` (no
observable effect on the modelled state). -/
def fio_close (f : MemFile) : MemFile × Bool :=
  match f.buffer with
  | some _ => ({ f with buffer := none }, true)
  | none => (f, false)

/-- `fio_isopen` from file-io.c (lines 717-728), memory branch: a memory
file is open iff its buffer pointer is non-NULL. -/
def fio_isopen (f : MemFile) : Bool := f.buffer.isSome

/-- One recorded `fio_write` call: payload bytes, item size and count, and
whether any reallocation it needs succeeds. -/
structure WOp where
  data : List Nat
  isz : Nat
  icnt : Nat
  rok : Bool

/-- Apply a sequence of writes to a memory file, keeping the state only. -/
def applyWrites (f : MemFile) (ops : List WOp) : MemFile :=
  ops.foldl (fun g op => (fio_writemem g op.data op.isz op.icnt op.rok).1) f

/-! ## Path resolution (file-io.c) -/

/-- Modelled from the spec: the archive ("pak") collaborator interface of
section 6 — `locate(archive, path) -> id|not_found` (`pak_findfile`,
`none` for `INVALID_INDEX`) and `extract(archive, id, ...)`
(`pak_getfile`, `none` when extraction fails).  pak-file.c is outside the
specified core. -/
structure Pak where
  find : String → Option Nat
  get : Nat → Option (List Nat)

/-- Modelled from the spec: `path_join` (path.c is not under src/) joins a
virtual directory root with a logical path (section 4.5: "join its root
with the logical path"). -/
def path_join (root p : String) : String := root ++ "/" ++ p

/-- The file-manager state consulted by `fio_openmem`: mounted archives in
mount order, registered virtual directories in registration order, and the
raw filesystem (`fopen(path, "rb")` modelled as a partial map from path to
content). -/
structure FioEnv where
  paks : List Pak
  vdirs : List String
  fs : String → Option (List Nat)

/-- The pak loop of `fio_openmem` (file-io.c lines 383-391): scan mounted
archives in order; the first whose `pak_findfile` hits returns
`pak_getfile`'s result immediately (its mount index is reported for the
theorems); no hit falls through. -/
def pak_search : List Pak → String → Option (Nat × Option (List Nat))
  | [], _ => none
  | pk :: rest, p =>
    match pk.find p with
    | some id => some (0, pk.get id)
    | none => (pak_search rest p).map (fun r => (r.1 + 1, r.2))

/-- `open_resolvepath` from file-io.c (lines 543-560): try each virtual
directory in registration order, joining its root with the path; the first
whose joined path opens wins; NULL when every one misses. -/
def open_resolvepath (fs : String → Option (List Nat)) :
    List String → String → Option (String × List Nat)
  | [], _ => none
  | v :: rest, p =>
    match fs (path_join v p) with
    | some c => some (path_join v p, c)
    | none => open_resolvepath fs rest p

/-- Which tier of the resolution chain served an open. -/
inductive OpenSource where
  | pak (idx : Nat)
  | vdir (resolved : String)
  | raw
  deriving Repr, DecidableEq

/-- `fio_openmem` from file-io.c (lines 380-434), resolution behaviour:
the pak tier runs first (only when not bypassed and some pak is mounted),
then `FILE* ff = (!ignore_vfs && !arr_isempty(&g_fio->vdirs)) ?
open_resolvepath(filepath) : fopen(filepath, "rb")` — the raw `fopen` runs
only when bypassed or when no virtual directory is registered.  Returns
the serving tier and the content, or `none` when the open fails. -/
def fio_openmem (env : FioEnv) (p : String) (ignore_vfs : Bool) :
    Option (OpenSource × List Nat) :=
  match (if !ignore_vfs && !env.paks.isEmpty then pak_search env.paks p else none) with
  | some (i, some c) => some (OpenSource.pak i, c)
  | some (_, none) => none
  | none =>
    if !ignore_vfs && !env.vdirs.isEmpty then
      (open_resolvepath env.fs env.vdirs p).map (fun r => (OpenSource.vdir r.1, r.2))
    else
      (env.fs p).map (fun c => (OpenSource.raw, c))

/-- The memory file `fio_openmem` builds for content it found: buffer of
`header->size + 1` allocated bytes (`A_ALLOC(size + 1)` then
`fread(buffer, size, 1)`; the final byte is unwritten, modelled as 0),
`max_size = header->size`, cursor 0, `size` = the content length. -/
def memFileOfContent (content : List Nat) : MemFile :=
  { size := content.length, buffer := some (content ++ [0]), offset := 0,
    max_size := content.length }

/-- `fio_openmem` as a memory-file constructor (whichever tier served). -/
def fio_openmem_file (env : FioEnv) (p : String) (iv : Bool) : Option MemFile :=
  (fio_openmem env p iv).map (fun r => memFileOfContent r.2)

/-- Observable outcome of `fio_loadtext`: the returned pointer, whether the
OUT parameter `size` was written, and whether the detached buffer was freed
(`A_FREE`) before returning. -/
structure LoadTextResult where
  data : Option (List Nat)
  size_out : Option Nat
  freed : Bool
  deriving Repr, DecidableEq

/-- `fio_loadtext` from file-io.c (lines 357-378): open into memory, detach
the buffer, close the handle; when the detached size is 0, free the buffer
and return NULL without touching the OUT parameter; otherwise write a NUL
at index `size` and return buffer and size.  (The detach-returned-NULL arm
is unreachable from a successful open; it is modelled as the NULL return
the C code produces.) -/
def fio_loadtext (env : FioEnv) (p : String) (iv : Bool) : LoadTextResult :=
  match fio_openmem_file env p iv with
  | none => { data := none, size_out := none, freed := false }
  | some f =>
    match fio_detachmem f with
    | (none, _) => { data := none, size_out := none, freed := false }
    | (some (buf, s), f1) =>
      let _ := fio_close f1
      if s = 0 then { data := none, size_out := none, freed := true }
      else { data := some (buf.set s 0), size_out := some s, freed := false }

/-! ## Directory-change monitoring (file-io.c, `_FILEMON_` section) -/

/-- The `efsw_action` values distinguished by `fio_mon_callback`. -/
inductive EfswAction where
  | added
  | deleted
  | modified
  | moved
  deriving Repr, DecidableEq

/-- `fio_find_file` from file-io.c (lines 812-820): linear scan of a path
list for an exact match. -/
def fio_find_file : List String → String → Bool
  | [], _ => false
  | f :: rest, p => if f = p then true else fio_find_file rest p

/-- Monitor state of one virtual directory plus its dispatch log: the
`back` list (receiving watcher appends), the `front` list (drained by the
poller), and the sequence of paths dispatched to callbacks so far.  Both
lists are empty right after `fio_vdir_initmon`. -/
structure MonState where
  back : List String
  front : List String
  log : List String
  deriving Repr, DecidableEq

/-- `fio_mon_callback` from file-io.c (lines 748-768): on an
`EFSW_MODIFIED` or `EFSW_MOVED` action, append the (unix-normalised) path
to the back list unless `fio_find_file` already finds it there; other
actions are ignored.  The body runs under the directory mutex. -/
def fio_mon_callback (action : EfswAction) (s : MonState) (p : String) : MonState :=
  if action = EfswAction.modified ∨ action = EfswAction.moved then
    if fio_find_file s.back p then s
    else { s with back := s.back ++ [p] }
  else s

/-- One poll of one monitored directory, from `fio_mon_update` (file-io.c
lines 822-851): swap `back`/`front` under the mutex, dispatch every path
of the new front whose hashed path is registered (`reg`, the `mon_table`
lookup modelled as a membership test), then `arr_clear` that list.  The
new back is the old front, which the previous poll left empty. -/
def fio_mon_update (reg : String → Bool) (s : MonState) : MonState :=
  { back := s.front, front := [], log := s.log ++ s.back.filter reg }

/-- An atomic monitor event: one watcher notification (`fio_mon_callback`
with a MODIFIED action) or one `fio_mon_update` poll.  The callback body
and the poll's swap are serialised by the directory mutex, and the poll's
dispatch loop reads only the front list, which appends never touch, so
every fine-grained interleaving coincides with some sequence of these
events. -/
inductive MonEvent where
  | append (p : String)
  | poll
  deriving Repr, DecidableEq

/-- Interpret one monitor event. -/
def monStep (reg : String → Bool) (s : MonState) : MonEvent → MonState
  | MonEvent.append p => fio_mon_callback EfswAction.modified s p
  | MonEvent.poll => fio_mon_update reg s

/-- Run a sequence of monitor events against one directory, with `reg` the
monitor-registry membership test. -/
def monRun (reg : String → Bool) (s : MonState) (evs : List MonEvent) : MonState :=
  evs.foldl (monStep reg) s

/-- The state of a freshly initialised monitored directory
(`fio_vdir_initmon`): both lists empty, nothing dispatched yet. -/
def monInit : MonState := { back := [], front := [], log := [] }

theorem incrStep_size (h : hash_incr) (b : Nat) : (incrStep h b).size = h.size := by
  by_cases hc : h.cnt + 1 = 4 <;> simp [incrStep, hc]

theorem incrStep_setSize (h : hash_incr) (s b : Nat) :
    incrStep { h with size := s } b = { incrStep h b with size := s } := by
  by_cases hc : h.cnt + 1 = 4 <;> simp [incrStep, hc]

theorem foldl_incrStep_size (h : hash_incr) (l : List Nat) :
    (List.foldl incrStep h l).size = h.size := by
  induction l generalizing h with
  | nil => rfl
  | cons b rest ih => rw [List.foldl_cons, ih, incrStep_size]

theorem foldl_incrStep_setSize (h : hash_incr) (s : Nat) (l : List Nat) :
    List.foldl incrStep { h with size := s } l = { List.foldl incrStep h l with size := s } := by
  induction l generalizing h with
  | nil => rfl
  | cons b rest ih => rw [List.foldl_cons, incrStep_setSize, ih, List.foldl_cons]

theorem incrStep_inv (h : hash_incr) (b : Nat) (hi : Inv h) : Inv (incrStep h b) := by
  obtain ⟨hlt, htl⟩ := hi
  by_cases hc : h.cnt + 1 = 4
  · simp [incrStep, hc, Inv]
  · simp only [incrStep, if_neg hc]
    constructor
    · show h.cnt + 1 < 4
      omega
    · intro h0
      have hz : h.cnt + 1 = 0 := h0
      exact absurd hz (Nat.succ_ne_zero _)

theorem foldl_incrStep_inv (l : List Nat) (h : hash_incr) (hi : Inv h) :
    Inv (List.foldl incrStep h l) := by
  induction l generalizing h with
  | nil => exact hi
  | cons b rest ih => exact ih _ (incrStep_inv h b hi)

theorem hash_mixtail_spec (l : List Nat) (h : hash_incr) :
    ∃ pre, l = pre ++ (hash_mixtail h l).2 ∧
      (hash_mixtail h l).1 = List.foldl incrStep h pre := by
  induction l generalizing h with
  | nil => exact ⟨[], by simp [hash_mixtail]⟩
  | cons b rest ih =>
    by_cases hc : rest.length + 1 < 4 ∨ h.cnt ≠ 0
    · obtain ⟨pre, h1, h2⟩ := ih (incrStep h b)
      refine ⟨b :: pre, ?_, ?_⟩
      · simp only [hash_mixtail, if_pos hc, List.cons_append]
        exact congrArg (b :: ·) h1
      · simp only [hash_mixtail, if_pos hc, List.foldl_cons]
        exact h2
    · exact ⟨[], by simp only [hash_mixtail, if_neg hc]; simp⟩

theorem hash_mixtail_rest (l : List Nat) (h : hash_incr) :
    (hash_mixtail h l).2 = [] ∨
      (4 ≤ (hash_mixtail h l).2.length ∧ (hash_mixtail h l).1.cnt = 0) := by
  induction l generalizing h with
  | nil => left; rfl
  | cons b rest ih =>
    by_cases hc : rest.length + 1 < 4 ∨ h.cnt ≠ 0
    · simp only [hash_mixtail, if_pos hc]
      exact ih _
    · simp only [hash_mixtail, if_neg hc]
      push_neg at hc
      right
      refine ⟨?_, hc.2⟩
      show 4 ≤ (b :: rest).length
      simp only [List.length_cons]
      omega

theorem hash_mixtail_consume (l : List Nat) (h : hash_incr) (hl : l.length < 4) :
    hash_mixtail h l = (List.foldl incrStep h l, []) := by
  induction l generalizing h with
  | nil => rfl
  | cons b rest ih =>
    have hc : rest.length + 1 < 4 ∨ h.cnt ≠ 0 := Or.inl (by simpa using hl)
    simp only [hash_mixtail, if_pos hc, List.foldl_cons]
    exact ih _ (by simp at hl; omega)

theorem foldl_incrStep_word (h : hash_incr) (hc : h.cnt = 0) (ht : h.tail = 0)
    (b0 b1 b2 b3 : Nat) :
    List.foldl incrStep h [b0, b1, b2, b3] =
      { h with hash := MMIX h.hash (le32 b0 b1 b2 b3) } := by
  simp [incrStep, le32, hc, ht]

theorem incrBlocks_spec_aux (n : Nat) : ∀ (l : List Nat), l.length ≤ n →
    ∀ (h : hash_incr), h.cnt = 0 → h.tail = 0 →
    ∃ pre, l = pre ++ (incrBlocks h l).2 ∧
      (incrBlocks h l).1 = List.foldl incrStep h pre ∧
      (incrBlocks h l).1.cnt = 0 ∧ (incrBlocks h l).1.tail = 0 ∧
      (incrBlocks h l).2.length < 4 := by
  induction n with
  | zero =>
    intro l hl h hc ht
    have hnil : l = [] := List.length_eq_zero.mp (Nat.le_zero.mp hl)
    subst hnil
    exact ⟨[], rfl, rfl, hc, ht, by show (0:Nat) < 4; decide⟩
  | succ n ih =>
    intro l hl h hc ht
    rcases l with _ | ⟨b0, _ | ⟨b1, _ | ⟨b2, _ | ⟨b3, rest⟩⟩⟩⟩
    · exact ⟨[], rfl, rfl, hc, ht, by show (0:Nat) < 4; decide⟩
    · exact ⟨[], rfl, rfl, hc, ht, by show (1:Nat) < 4; decide⟩
    · exact ⟨[], rfl, rfl, hc, ht, by show (2:Nat) < 4; decide⟩
    · exact ⟨[], rfl, rfl, hc, ht, by show (3:Nat) < 4; decide⟩
    · have hrest : rest.length ≤ n := by simp at hl; omega
      have hstep : incrBlocks h (b0 :: b1 :: b2 :: b3 :: rest) =
          incrBlocks { h with hash := MMIX h.hash (le32 b0 b1 b2 b3) } rest := rfl
      obtain ⟨pre, h1, h2, h3, h4, h5⟩ :=
        ih rest hrest { h with hash := MMIX h.hash (le32 b0 b1 b2 b3) } (by simp [hc]) (by simp [ht])
      refine ⟨b0 :: b1 :: b2 :: b3 :: pre, ?_, ?_, ?_, ?_, ?_⟩
      · rw [hstep]
        simpa using h1
      · rw [hstep, h2]
        have := foldl_incrStep_word h hc ht b0 b1 b2 b3
        rw [show (b0 :: b1 :: b2 :: b3 :: pre : List Nat) =
          [b0, b1, b2, b3] ++ pre from rfl, List.foldl_append, this]
      · rw [hstep]; exact h3
      · rw [hstep]; exact h4
      · rw [hstep]; exact h5

theorem incrBlocks_spec (l : List Nat) (h : hash_incr) (hc : h.cnt = 0) (ht : h.tail = 0) :
    ∃ pre, l = pre ++ (incrBlocks h l).2 ∧
      (incrBlocks h l).1 = List.foldl incrStep h pre ∧
      (incrBlocks h l).1.cnt = 0 ∧ (incrBlocks h l).1.tail = 0 ∧
      (incrBlocks h l).2.length < 4 :=
  incrBlocks_spec_aux l.length l (Nat.le_refl _) h hc ht

theorem murmurincr_add_eq_foldl (h : hash_incr) (data : List Nat) (hi : Inv h) :
    hash_murmurincr_add h data =
      List.foldl incrStep { h with size := h.size + data.length } data := by
  have hi0 : Inv { h with size := h.size + data.length } := by
    simpa [Inv] using hi
  unfold hash_murmurincr_add
  dsimp only
  set h0 : hash_incr := { h with size := h.size + data.length } with hh0
  set m1 := hash_mixtail h0 data with hm1def
  set m2 := incrBlocks m1.1 m1.2 with hm2def
  obtain ⟨pre1, hd1, hm1⟩ := hash_mixtail_spec data h0
  rw [← hm1def] at hd1 hm1
  rcases hash_mixtail_rest data h0 with hrest | ⟨hlen, hcnt⟩
  · rw [← hm1def] at hrest
    rw [hrest, List.append_nil] at hd1
    rw [hm2def, hrest, hd1]
    exact hm1
  · rw [← hm1def] at hlen hcnt
    have hinv1 : Inv m1.1 := by
      rw [hm1]
      exact foldl_incrStep_inv _ _ hi0
    have htl1 : m1.1.tail = 0 := hinv1.2 hcnt
    obtain ⟨pre2, hd2, hm2, hc2, ht2, hl2⟩ := incrBlocks_spec m1.2 m1.1 hcnt htl1
    rw [← hm2def] at hd2 hm2 hc2 ht2 hl2
    rw [hash_mixtail_consume m2.2 m2.1 hl2]
    show List.foldl incrStep m2.1 m2.2 = List.foldl incrStep h0 data
    rw [hd1, hd2, List.foldl_append, List.foldl_append, ← hm1, ← hm2]

theorem murmurincr_add_inv (h : hash_incr) (data : List Nat) (hi : Inv h) :
    Inv (hash_murmurincr_add h data) := by
  rw [murmurincr_add_eq_foldl h data hi]
  exact foldl_incrStep_inv _ _ (by simpa [Inv] using hi)

theorem foldl_add_eq (chunks : List (List Nat)) : ∀ (h : hash_incr), Inv h →
    chunks.foldl hash_murmurincr_add h =
      List.foldl incrStep { h with size := h.size + chunks.flatten.length } chunks.flatten := by
  induction chunks with
  | nil =>
    intro h hi
    cases h
    simp
  | cons c cs ih =>
    intro h hi
    rw [List.foldl_cons, ih _ (murmurincr_add_inv h c hi), murmurincr_add_eq_foldl h c hi,
      foldl_incrStep_size, ← foldl_incrStep_setSize]
    have hrec : ({ ({ h with size := h.size + c.length } : hash_incr) with
        size := ({ h with size := h.size + c.length } : hash_incr).size + cs.flatten.length } :
        hash_incr) = { h with size := h.size + (c.length + cs.flatten.length) } := by
      cases h
      simp [Nat.add_assoc]
    rw [hrec, ← List.foldl_append]
    simp [Nat.add_assoc]

/-- C1 (amended): feeding a byte string to the incremental hash in any
sequence of chunks produces the same value as feeding the whole
concatenation in one single `add` call — chunk boundaries are invisible.
(The incremental hash is *not* equal to the one-shot `hash_murmur32`; see
the counterexample.) -/
theorem hash_incr_chunk_invariant (seed : Nat) (chunks : List (List Nat)) :
    hash_incr_run seed chunks = hash_incr_run seed [chunks.flatten] := by
  unfold hash_incr_run
  have hinv : Inv (hash_murmurincr_begin seed) := by
    simp [Inv, hash_murmurincr_begin]
  rw [foldl_add_eq chunks _ hinv, List.foldl_cons, List.foldl_nil,
    murmurincr_add_eq_foldl _ _ hinv]

/-- C1 (counterexample): for the one-byte string "a" (byte 97) and the
default seed `HSEED`, the incremental hash does not agree with the one-shot
`hash_murmur32`: the two entry points implement different algorithms
(MurmurHash2A incremental vs MurmurHash3). -/
theorem incr_hash_ne_hash32_at_a :
    hash_incr_run HSEED [[97]] ≠ hash_murmur32 [97] HSEED := by decide

/-! ## Memory-file theorems -/

/-- C3 (counterexample): a write needing growth whose reallocation fails
does NOT leave the handle's prior state unchanged — `fio_writemem` stores
`A_REALLOC`'s NULL into `fdata->buffer` before checking it, so the buffer
pointer is clobbered (and the old allocation leaked). -/
theorem writemem_realloc_fail_counterexample :
    (fio_writemem ⟨1, some [7], 1, 1⟩ [9] 1 1 false).1 ≠ (⟨1, some [7], 1, 1⟩ : MemFile) ∧
    (fio_writemem ⟨1, some [7], 1, 1⟩ [9] 1 1 false).1.buffer = none := by decide

/-- C3 (amended): when a write's required growth reallocation fails, the
write returns 0 and `size`, `offset` and capacity (`max_size`) are
unchanged, but the buffer pointer has been overwritten with NULL — the
handle subsequently reads as not-open (this is how callers distinguish the
out-of-memory 0 from an EOF 0), and the prior buffer pointer is lost. -/
theorem writemem_realloc_fail (f : MemFile) (data : List Nat) (isz icnt : Nat)
    (hg : isz * icnt + f.offset > f.max_size) :
    fio_writemem f data isz icnt false = ({ f with buffer := none }, 0) := by
  unfold fio_writemem
  simp [hg]

/-- Witness for `writemem_realloc_fail` at a concrete file and write. -/
theorem writemem_realloc_fail_witness :
    fio_writemem ⟨1, some [7], 1, 1⟩ [9] 1 1 false = (⟨1, none, 1, 1⟩, 0) :=
  writemem_realloc_fail ⟨1, some [7], 1, 1⟩ [9] 1 1 (by decide)

theorem writemem_fail_eq (f : MemFile) (data : List Nat) (isz icnt : Nat)
    (hg : isz * icnt + f.offset > f.max_size) :
    fio_writemem f data isz icnt false = ({ f with buffer := none }, 0) := by
  unfold fio_writemem
  simp [hg]

theorem writemem_grow_ok (f : MemFile) (d : List Nat) (isz icnt : Nat)
    (hg : isz * icnt + f.offset > f.max_size) :
    fio_writemem f d isz icnt true =
      finishWrite { f with
          buffer := some (reallocBuf f.buffer
            (((isz * icnt + f.offset - f.max_size) / MEM_BLOCK_SIZE + 1) * MEM_BLOCK_SIZE
              + f.max_size)),
          max_size := f.max_size +
            ((isz * icnt + f.offset - f.max_size) / MEM_BLOCK_SIZE + 1) * MEM_BLOCK_SIZE }
        d (isz * icnt) icnt := by
  unfold fio_writemem
  rw [if_pos hg]
  rfl

theorem writemem_nogrow (f : MemFile) (d : List Nat) (isz icnt : Nat) (rok : Bool)
    (hg : ¬(isz * icnt + f.offset > f.max_size)) :
    fio_writemem f d isz icnt rok = finishWrite f d (isz * icnt) icnt := by
  unfold fio_writemem
  rw [if_neg hg]

theorem finishWrite_max_size (f : MemFile) (d : List Nat) (w i : Nat) :
    (finishWrite f d w i).1.max_size = f.max_size := by
  unfold finishWrite
  dsimp only
  split <;> rfl

theorem finishWrite_size (f : MemFile) (d : List Nat) (w i : Nat) :
    (finishWrite f d w i).1.size = max f.size (f.offset + w) := by
  unfold finishWrite
  dsimp only
  split
  · next hc =>
    show f.offset + w = max f.size (f.offset + w)
    omega
  · next hc =>
    show f.size = max f.size (f.offset + w)
    omega

theorem finishWrite_offset (f : MemFile) (d : List Nat) (w i : Nat) :
    (finishWrite f d w i).1.offset = f.offset + w := by
  unfold finishWrite
  dsimp only
  split <;> rfl

theorem writemem_invariant_step (f : MemFile) (d : List Nat) (isz icnt : Nat) (rok : Bool)
    (hf : f.size ≤ f.max_size) :
    (fio_writemem f d isz icnt rok).1.size ≤ (fio_writemem f d isz icnt rok).1.max_size ∧
    f.max_size ≤ (fio_writemem f d isz icnt rok).1.max_size := by
  by_cases hg : isz * icnt + f.offset > f.max_size
  · cases rok with
    | false =>
      rw [writemem_fail_eq f d isz icnt hg]
      exact ⟨hf, Nat.le_refl _⟩
    | true =>
      rw [writemem_grow_ok f d isz icnt hg]
      constructor
      · rw [finishWrite_size, finishWrite_max_size]
        dsimp only
        simp only [MEM_BLOCK_SIZE]
        omega
      · rw [finishWrite_max_size]
        dsimp only
        simp only [MEM_BLOCK_SIZE]
        omega
  · rw [writemem_nogrow f d isz icnt rok hg]
    constructor
    · rw [finishWrite_size, finishWrite_max_size]
      omega
    · rw [finishWrite_max_size]

theorem applyWrites_invariant (ops : List WOp) : ∀ (f : MemFile), f.size ≤ f.max_size →
    (applyWrites f ops).size ≤ (applyWrites f ops).max_size ∧
    f.max_size ≤ (applyWrites f ops).max_size := by
  induction ops with
  | nil => exact fun f hf => ⟨hf, Nat.le_refl _⟩
  | cons op rest ih =>
    intro f hf
    have h1 := writemem_invariant_step f op.data op.isz op.icnt op.rok hf
    have h2 := ih (fio_writemem f op.data op.isz op.icnt op.rok).1 h1.1
    exact ⟨h2.1, Nat.le_trans h1.2 h2.2⟩

/-- C6 (counterexample): on a fresh memory file (capacity 4096), writing
8192 bytes has shortfall 4096 — already a multiple of the block size, so
"the shortfall rounded up to a multiple of the block size" is 4096 and the
claim predicts capacity 8192 — but the code computes
`(grow_sz/MEM_BLOCK_SIZE + 1) * MEM_BLOCK_SIZE = 8192` extra, giving
capacity 12288. -/
theorem writemem_growth_counterexample :
    (fio_writemem fio_createmem (List.replicate 8192 1) 1 8192 true).1.max_size ≠
      fio_createmem.max_size + 4096 ∧
    (fio_writemem fio_createmem (List.replicate 8192 1) 1 8192 true).1.max_size = 12288 := by
  have h2 : (fio_writemem fio_createmem (List.replicate 8192 1) 1 8192 true).1.max_size =
      12288 := rfl
  refine ⟨?_, h2⟩
  rw [h2]
  decide

/-- C6 (amended): over any sequence of writes, capacity (`max_size`) is
non-decreasing and `capacity ≥ size` is preserved; and a write that
overflows capacity (with the reallocation succeeding) grows capacity by
exactly `(shortfall / MEM_BLOCK_SIZE + 1) * MEM_BLOCK_SIZE` — that is, the
shortfall rounded up to the *next* multiple of the block size, one full
block more than the claim's rounding when the shortfall is already an
exact multiple. -/
theorem memfile_capacity_invariant (f : MemFile) (ops : List WOp)
    (hf : f.size ≤ f.max_size) :
    ((applyWrites f ops).size ≤ (applyWrites f ops).max_size ∧
      f.max_size ≤ (applyWrites f ops).max_size) ∧
    (∀ (g : MemFile) (d : List Nat) (isz icnt : Nat),
      isz * icnt + g.offset > g.max_size →
      (fio_writemem g d isz icnt true).1.max_size =
        g.max_size + ((isz * icnt + g.offset - g.max_size) / MEM_BLOCK_SIZE + 1)
          * MEM_BLOCK_SIZE) := by
  refine ⟨applyWrites_invariant ops f hf, ?_⟩
  intro g d isz icnt hg
  rw [writemem_grow_ok g d isz icnt hg, finishWrite_max_size]

/-- Witness for `memfile_capacity_invariant`: one concrete write sequence
on a fresh file, and the exact growth of an overflowing write. -/
theorem memfile_capacity_invariant_witness :
    ((applyWrites fio_createmem [⟨[5], 1, 1, true⟩]).size ≤
        (applyWrites fio_createmem [⟨[5], 1, 1, true⟩]).max_size ∧
      fio_createmem.max_size ≤ (applyWrites fio_createmem [⟨[5], 1, 1, true⟩]).max_size) ∧
    (fio_writemem ⟨0, some [], 0, 0⟩ [5] 1 1 true).1.max_size =
      0 + ((1 * 1 + 0 - 0) / MEM_BLOCK_SIZE + 1) * MEM_BLOCK_SIZE := by
  have h := memfile_capacity_invariant fio_createmem [⟨[5], 1, 1, true⟩] (by decide)
  exact ⟨h.1, h.2 ⟨0, some [], 0, 0⟩ [5] 1 1 (by decide)⟩

theorem finishWrite_fresh (f : MemFile) (b : List Nat) (hb : f.buffer = some b)
    (ho : f.offset = 0) (hs : f.size = 0) (data : List Nat) (i : Nat) :
    (finishWrite f data data.length i).1 =
      { size := data.length, buffer := some (data ++ b.drop data.length),
        offset := data.length, max_size := f.max_size } := by
  obtain ⟨sz, buf, off, msz⟩ := f
  dsimp only at hb ho hs ⊢
  subst hb
  subst ho
  subst hs
  by_cases h0 : data.length = 0
  · have hd : data = [] := List.length_eq_zero.mp h0
    subst hd
    simp [finishWrite, memcpyAt]
  · have hpos : 0 < data.length := by omega
    simp [finishWrite, memcpyAt, hpos, List.take_length]

theorem writemem_fresh (data : List Nat) :
    ∃ (rest : List Nat) (ms : Nat),
      (fio_writemem fio_createmem data 1 data.length true).1 =
        { size := data.length, buffer := some (data ++ rest), offset := data.length,
          max_size := ms } := by
  by_cases hg : 1 * data.length + fio_createmem.offset > fio_createmem.max_size
  · rw [writemem_grow_ok _ _ _ _ hg, Nat.one_mul data.length,
      finishWrite_fresh _ _ rfl rfl rfl data data.length]
    exact ⟨_, _, rfl⟩
  · rw [writemem_nogrow _ _ _ _ _ hg, Nat.one_mul data.length,
      finishWrite_fresh _ _ rfl rfl rfl data data.length]
    exact ⟨_, _, rfl⟩

/-- C7: writing N arbitrary bytes to a fresh memory file, seeking to Start
with offset 0, then reading N one-byte items returns exactly the bytes
written and reports N items of size one.  The quantifier covers every N,
in particular 0, 1, exactly one growth block, and several blocks plus
one. -/
theorem memfile_roundtrip (data : List Nat) :
    (fio_readmem (fio_seek (fio_writemem fio_createmem data 1 data.length true).1
        SeekMode.start 0) 1 data.length).2 = (data, data.length) := by
  obtain ⟨rest, ms, hw⟩ := writemem_fresh data
  rw [hw]
  have hseek : fio_seek ⟨data.length, some (data ++ rest), data.length, ms⟩
      SeekMode.start 0 = ⟨data.length, some (data ++ rest), 0, ms⟩ := by
    simp [fio_seek, szwrap, clampsz]
  rw [hseek]
  by_cases h0 : data.length = 0
  · have hd : data = [] := List.length_eq_zero.mp h0
    subst hd
    simp [fio_readmem]
  · simp [fio_readmem, h0, List.take_left]

theorem clampsz_le (n m : Nat) : clampsz n 0 m ≤ m := by
  unfold clampsz
  split
  · omega
  · split <;> omega

theorem clampsz_of_le (n m : Nat) (h : n ≤ m) : clampsz n 0 m = n := by
  unfold clampsz
  split
  · omega
  · split <;> omega

theorem szwrap_eq (i : Int) (h0 : 0 ≤ i) (h1 : i < 18446744073709551616) :
    (szwrap i : Int) = i := by
  unfold szwrap
  rw [Int.emod_eq_of_lt h0 h1]
  exact Int.toNat_of_nonneg h0

/-- C5: a memory-file seek always lands in `[0, size]` (saturating, never
an error), and whenever the mode's intended position — `offset` for Start,
cursor plus `offset` for Current, `size - offset` for End with non-negative
`offset` — already lies in `[0, size]`, the cursor takes exactly that
value. -/
theorem fio_seek_in_range (f : MemFile) (mode : SeekMode) (off : Int)
    (hsz : f.size < 18446744073709551616) :
    (fio_seek f mode off).offset ≤ f.size ∧
    (mode = SeekMode.start → 0 ≤ off → off ≤ (f.size : Int) →
      ((fio_seek f mode off).offset : Int) = off) ∧
    (mode = SeekMode.cur → 0 ≤ (f.offset : Int) + off → (f.offset : Int) + off ≤ (f.size : Int) →
      ((fio_seek f mode off).offset : Int) = (f.offset : Int) + off) ∧
    (mode = SeekMode.end_ → 0 ≤ off → off ≤ (f.size : Int) →
      ((fio_seek f mode off).offset : Int) = (f.size : Int) - off) := by
  have hszi : ((f.size : Int)) < 18446744073709551616 := by exact_mod_cast hsz
  refine ⟨clampsz_le _ _, ?_, ?_, ?_⟩
  · intro hm h0 h1
    subst hm
    show ((clampsz (szwrap off) 0 f.size : Nat) : Int) = off
    have hw : (szwrap off : Int) = off := szwrap_eq off h0 (lt_of_le_of_lt h1 hszi)
    have hle : szwrap off ≤ f.size := by
      have h2 := h1
      rw [← hw] at h2
      exact_mod_cast h2
    rw [clampsz_of_le _ _ hle, hw]
  · intro hm h0 h1
    subst hm
    show ((clampsz (szwrap ((f.offset : Int) + off)) 0 f.size : Nat) : Int) = (f.offset : Int) + off
    have hw : (szwrap ((f.offset : Int) + off) : Int) = (f.offset : Int) + off :=
      szwrap_eq _ h0 (lt_of_le_of_lt h1 hszi)
    have hle : szwrap ((f.offset : Int) + off) ≤ f.size := by
      have h2 := h1
      rw [← hw] at h2
      exact_mod_cast h2
    rw [clampsz_of_le _ _ hle, hw]
  · intro hm h0 h1
    subst hm
    show ((clampsz (szwrap ((f.size : Int) - off)) 0 f.size : Nat) : Int) = (f.size : Int) - off
    have hv0 : 0 ≤ (f.size : Int) - off := by omega
    have hv1 : (f.size : Int) - off < 18446744073709551616 := by omega
    have hw : (szwrap ((f.size : Int) - off) : Int) = (f.size : Int) - off :=
      szwrap_eq _ hv0 hv1
    have hle : szwrap ((f.size : Int) - off) ≤ f.size := by
      have h2 : (f.size : Int) - off ≤ (f.size : Int) := by omega
      rw [← hw] at h2
      exact_mod_cast h2
    rw [clampsz_of_le _ _ hle, hw]

/-- Witness for `fio_seek_in_range`: on a size-10 file, Start −5 stays in
range (it clamps) and Start 3 lands exactly at 3. -/
theorem fio_seek_in_range_witness :
    (fio_seek ⟨10, some [], 2, 10⟩ SeekMode.start (-5)).offset ≤ 10 ∧
    ((fio_seek ⟨10, some [], 2, 10⟩ SeekMode.start 3).offset : Int) = 3 :=
  ⟨(fio_seek_in_range ⟨10, some [], 2, 10⟩ SeekMode.start (-5) (by decide)).1,
    (fio_seek_in_range ⟨10, some [], 2, 10⟩ SeekMode.start 3 (by decide)).2.1 rfl
      (by decide) (by decide)⟩

/-- C9: detach on a live buffer returns exactly that buffer and the
logical size, resets the payload (the handle reads as closed), and a
subsequent close frees nothing — it only hands the record back to its
pool, leaving the detached buffer untouched. -/
theorem detachmem_spec (f : MemFile) (buf : List Nat) (hb : f.buffer = some buf) :
    fio_detachmem f =
      (some (buf, f.size), { f with buffer := none, offset := 0, max_size := 0 }) ∧
    fio_isopen (fio_detachmem f).2 = false ∧
    (fio_close (fio_detachmem f).2).2 = false := by
  have h1 : fio_detachmem f =
      (some (buf, f.size), { f with buffer := none, offset := 0, max_size := 0 }) := by
    unfold fio_detachmem
    rw [hb]
  refine ⟨h1, ?_, ?_⟩ <;> rw [h1] <;> rfl

/-- Witness for `detachmem_spec` at a concrete memory file. -/
theorem detachmem_spec_witness :
    fio_detachmem ⟨3, some [1, 2, 3], 1, 5⟩ = (some ([1, 2, 3], 3), ⟨3, none, 0, 0⟩) ∧
    fio_isopen (fio_detachmem ⟨3, some [1, 2, 3], 1, 5⟩).2 = false ∧
    (fio_close (fio_detachmem ⟨3, some [1, 2, 3], 1, 5⟩).2).2 = false :=
  detachmem_spec ⟨3, some [1, 2, 3], 1, 5⟩ [1, 2, 3] rfl

/-! ## Path-resolution theorems -/

theorem pak_search_first_hit (l1 : List Pak) (pk : Pak) (l2 : List Pak) (p : String)
    (hmiss : ∀ q ∈ l1, q.find p = none) (id : Nat) (hf : pk.find p = some id) :
    pak_search (l1 ++ pk :: l2) p = some (l1.length, pk.get id) := by
  induction l1 with
  | nil => simp [pak_search, hf]
  | cons q l1 ih =>
    have hq : q.find p = none := hmiss q (by simp)
    have ihh := ih (fun r hr => hmiss r (by simp [hr]))
    simp [pak_search, hq, ihh]

theorem pak_search_none (l : List Pak) (p : String) (h : ∀ pk ∈ l, pk.find p = none) :
    pak_search l p = none := by
  induction l with
  | nil => rfl
  | cons q l ih =>
    have hq : q.find p = none := h q (by simp)
    have ihh := ih (fun r hr => h r (by simp [hr]))
    simp [pak_search, hq, ihh]

theorem open_resolvepath_first_hit (fs : String → Option (List Nat)) (v1 : List String)
    (v : String) (v2 : List String) (p : String)
    (hmiss : ∀ w ∈ v1, fs (path_join w p) = none) (c : List Nat)
    (hv : fs (path_join v p) = some c) :
    open_resolvepath fs (v1 ++ v :: v2) p = some (path_join v p, c) := by
  induction v1 with
  | nil => simp [open_resolvepath, hv]
  | cons w v1 ih =>
    have hw : fs (path_join w p) = none := hmiss w (by simp)
    have ihh := ih (fun r hr => hmiss r (by simp [hr]))
    simp [open_resolvepath, hw, ihh]

theorem open_resolvepath_none (fs : String → Option (List Nat)) (vds : List String)
    (p : String) (h : ∀ v ∈ vds, fs (path_join v p) = none) :
    open_resolvepath fs vds p = none := by
  induction vds with
  | nil => rfl
  | cons w vds ih =>
    have hw : fs (path_join w p) = none := h w (by simp)
    have ihh := ih (fun r hr => h r (by simp [hr]))
    simp [open_resolvepath, hw, ihh]

/-- C2 (counterexample): with no archive mounted, one virtual directory
"v" registered, and a raw filesystem file at the logical path "p": every
archive and every virtual directory misses, yet the open FAILS instead of
falling back to the raw filesystem path — the raw `fopen` runs only when
resolution is bypassed or no virtual directory is registered. -/
theorem openmem_no_raw_fallback_counterexample :
    fio_openmem ⟨[], ["v"], fun q => if q = "p" then some [1] else none⟩ "p" false = none ∧
    (⟨[], ["v"], fun q => if q = "p" then some [1] else none⟩ : FioEnv).fs "p" = some [1] := by
  constructor
  · rfl
  · rfl

/-- C2 (amended): resolution order of an unbypassed `fio_openmem`:
(1) archives are queried in mount order and the first containing the path
serves it; (2) when every archive misses and at least one virtual
directory is registered, directories are tried in registration order, each
root joined with the path, and the first hit serves; (3) when additionally
every virtual directory misses, the open fails — there is NO raw-path
fallback in that case; (4) the raw filesystem path is consulted exactly
when no virtual directory is registered (the archive tier still running
first). -/
theorem openmem_resolution_order (env : FioEnv) (p : String) :
    (∀ (l1 : List Pak) (pk : Pak) (l2 : List Pak) (id : Nat) (c : List Nat),
      env.paks = l1 ++ pk :: l2 → (∀ q ∈ l1, q.find p = none) →
      pk.find p = some id → pk.get id = some c →
      fio_openmem env p false = some (OpenSource.pak l1.length, c)) ∧
    (∀ (v1 : List String) (v : String) (v2 : List String) (c : List Nat),
      (∀ q ∈ env.paks, q.find p = none) →
      env.vdirs = v1 ++ v :: v2 → (∀ w ∈ v1, env.fs (path_join w p) = none) →
      env.fs (path_join v p) = some c →
      fio_openmem env p false = some (OpenSource.vdir (path_join v p), c)) ∧
    ((∀ q ∈ env.paks, q.find p = none) → env.vdirs ≠ [] →
      (∀ w ∈ env.vdirs, env.fs (path_join w p) = none) →
      fio_openmem env p false = none) ∧
    ((∀ q ∈ env.paks, q.find p = none) → env.vdirs = [] →
      fio_openmem env p false = (env.fs p).map (fun c => (OpenSource.raw, c))) := by
  refine ⟨?_, ?_, ?_, ?_⟩
  · intro l1 pk l2 id c hpaks hmiss hfind hget
    have hne : ¬env.paks.isEmpty := by simp [hpaks]
    have hsearch : pak_search env.paks p = some (l1.length, pk.get id) := by
      rw [hpaks]
      exact pak_search_first_hit l1 pk l2 p hmiss id hfind
    simp [fio_openmem, hne, hsearch, hget]
  · intro v1 v v2 c hp hvd hmiss hv
    have hsearch : pak_search env.paks p = none := pak_search_none env.paks p hp
    have hvne : ¬env.vdirs.isEmpty := by simp [hvd]
    have hres : open_resolvepath env.fs env.vdirs p = some (path_join v p, c) := by
      rw [hvd]
      exact open_resolvepath_first_hit env.fs v1 v v2 p hmiss c hv
    by_cases hpe : env.paks.isEmpty <;>
      simp [fio_openmem, hpe, hsearch, hvne, hres]
  · intro hp hvne hmiss
    have hsearch : pak_search env.paks p = none := pak_search_none env.paks p hp
    have hres : open_resolvepath env.fs env.vdirs p = none :=
      open_resolvepath_none env.fs env.vdirs p hmiss
    have hvne2 : ¬env.vdirs.isEmpty := by simp [hvne]
    by_cases hpe : env.paks.isEmpty <;>
      simp [fio_openmem, hpe, hsearch, hvne2, hres]
  · intro hp hvd
    have hsearch : pak_search env.paks p = none := pak_search_none env.paks p hp
    by_cases hpe : env.paks.isEmpty <;>
      simp [fio_openmem, hpe, hsearch, hvd]

/-- Witness for `openmem_resolution_order`: each of the four tiers
exercised at a concrete environment. -/
theorem openmem_resolution_order_witness :
    fio_openmem ⟨[⟨fun q => if q = "p" then some 5 else none,
        fun i => if i = 5 then some [7] else none⟩], [], fun _ => none⟩ "p" false =
      some (OpenSource.pak 0, [7]) ∧
    fio_openmem ⟨[], ["a", "b"], fun q => if q = "b/p" then some [2] else none⟩ "p" false =
      some (OpenSource.vdir "b/p", [2]) ∧
    fio_openmem ⟨[], ["v"], fun _ => none⟩ "p" false = none ∧
    fio_openmem ⟨[], [], fun q => if q = "p" then some [3] else none⟩ "p" false =
      some (OpenSource.raw, [3]) := by
  refine ⟨?_, ?_, ?_, ?_⟩
  · exact (openmem_resolution_order _ "p").1 [] _ [] 5 [7] rfl (by simp) rfl rfl
  · exact (openmem_resolution_order _ "p").2.1 ["a"] "b" [] [2] (by simp)
      rfl (by simp [path_join]) rfl
  · exact (openmem_resolution_order _ "p").2.2.1 (by simp) (by simp)
      (by simp [path_join])
  · exact (openmem_resolution_order _ "p").2.2.2 (by simp) rfl

/-- C10: when the resolved file exists with size 0, `fio_loadtext` frees
the buffer it detached and returns NULL without writing the OUT size
parameter — exactly the observable outcome (NULL data, size untouched) of
a failed resolution, so the caller cannot tell the two apart. -/
theorem loadtext_empty_file (env : FioEnv) (p : String) (iv : Bool) (f : MemFile)
    (hopen : fio_openmem_file env p iv = some f) (hsz : f.size = 0) :
    fio_loadtext env p iv = { data := none, size_out := none, freed := true } ∧
    (∀ (env2 : FioEnv) (p2 : String) (iv2 : Bool),
      fio_openmem_file env2 p2 iv2 = none →
      fio_loadtext env2 p2 iv2 = { data := none, size_out := none, freed := false }) := by
  constructor
  · obtain ⟨r, hr, hf⟩ := Option.map_eq_some'.mp hopen
    have hlen : r.2.length = 0 := by
      rw [← hf] at hsz
      exact hsz
    unfold fio_loadtext
    rw [hopen, ← hf]
    simp [fio_detachmem, memFileOfContent, hlen]
  · intro env2 p2 iv2 h2
    unfold fio_loadtext
    rw [h2]

/-- Witness for `loadtext_empty_file`: a raw zero-byte file at path "e",
and a missing path "x". -/
theorem loadtext_empty_file_witness :
    fio_loadtext ⟨[], [], fun q => if q = "e" then some [] else none⟩ "e" true =
      ⟨none, none, true⟩ ∧
    fio_loadtext ⟨[], [], fun _ => none⟩ "x" true = ⟨none, none, false⟩ := by
  have h := loadtext_empty_file ⟨[], [], fun q => if q = "e" then some [] else none⟩
    "e" true (memFileOfContent []) rfl rfl
  exact ⟨h.1, h.2 ⟨[], [], fun _ => none⟩ "x" true rfl⟩

/-! ## Monitoring theorems -/

theorem fio_find_file_iff (l : List String) (p : String) :
    fio_find_file l p = true ↔ p ∈ l := by
  induction l with
  | nil => simp [fio_find_file]
  | cons f rest ih =>
    by_cases h : f = p
    · simp [fio_find_file, h]
    · simp only [fio_find_file, if_neg h, ih, List.mem_cons]
      constructor
      · exact Or.inr
      · rintro (hh | hh)
        · exact absurd hh.symm h
        · exact hh

theorem monStep_nodup (reg : String → Bool) (s : MonState) (e : MonEvent)
    (h : s.back.Nodup ∧ s.front.Nodup) :
    (monStep reg s e).back.Nodup ∧ (monStep reg s e).front.Nodup := by
  cases e with
  | poll => exact ⟨h.2, List.nodup_nil⟩
  | append p =>
    show (fio_mon_callback EfswAction.modified s p).back.Nodup ∧
      (fio_mon_callback EfswAction.modified s p).front.Nodup
    unfold fio_mon_callback
    rw [if_pos (by simp)]
    by_cases hf : fio_find_file s.back p = true
    · rw [if_pos hf]
      exact h
    · rw [if_neg hf]
      have hp : p ∉ s.back := fun hm => hf ((fio_find_file_iff _ _).mpr hm)
      refine ⟨?_, h.2⟩
      show (s.back ++ [p]).Nodup
      rw [List.nodup_append]
      refine ⟨h.1, List.nodup_singleton p, ?_⟩
      intro x hx hx1
      simp only [List.mem_singleton] at hx1
      subst hx1
      exact hp hx

theorem monRun_nodup (reg : String → Bool) (evs : List MonEvent) :
    ∀ (s : MonState), s.back.Nodup ∧ s.front.Nodup →
      ((monRun reg s evs).back).Nodup ∧ ((monRun reg s evs).front).Nodup := by
  induction evs with
  | nil => exact fun s h => h
  | cons e rest ih => exact fun s h => ih _ (monStep_nodup reg s e h)

/-- C8: a watcher change event appends the changed path to the back list
only when `fio_find_file` does not already find it there (for any action,
a path already present leaves the state unchanged), and consequently along
any event sequence from a fresh monitored directory the back list never
contains duplicate paths. -/
theorem mon_back_dedup :
    (∀ (reg : String → Bool) (evs : List MonEvent),
      ((monRun reg monInit evs).back).Nodup) ∧
    (∀ (a : EfswAction) (s : MonState) (p : String), p ∈ s.back →
      fio_mon_callback a s p = s) := by
  constructor
  · intro reg evs
    exact (monRun_nodup reg evs monInit ⟨List.nodup_nil, List.nodup_nil⟩).1
  · intro a s p hp
    have hf : fio_find_file s.back p = true := (fio_find_file_iff _ _).mpr hp
    unfold fio_mon_callback
    by_cases ha : a = EfswAction.modified ∨ a = EfswAction.moved <;> simp [ha, hf]

/-- Witness for `mon_back_dedup`: two notifications of the same path
produce a duplicate-free back list, and an append of a present path is a
no-op. -/
theorem mon_back_dedup_witness :
    ((monRun (fun _ => true) monInit [MonEvent.append "a", MonEvent.append "a"]).back).Nodup ∧
    fio_mon_callback EfswAction.modified ⟨["a"], [], []⟩ "a" = ⟨["a"], [], []⟩ :=
  ⟨mon_back_dedup.1 (fun _ => true) [MonEvent.append "a", MonEvent.append "a"],
    mon_back_dedup.2 EfswAction.modified ⟨["a"], [], []⟩ "a" (by simp)⟩

theorem callback_log (a : EfswAction) (s : MonState) (p : String) :
    (fio_mon_callback a s p).log = s.log := by
  unfold fio_mon_callback
  split
  · split <;> rfl
  · rfl

theorem callback_front (a : EfswAction) (s : MonState) (p : String) :
    (fio_mon_callback a s p).front = s.front := by
  unfold fio_mon_callback
  split
  · split <;> rfl
  · rfl

theorem callback_back_absent (a : EfswAction) (s : MonState) (p q : String)
    (hq : q ≠ p) (hp : p ∉ s.back) : p ∉ (fio_mon_callback a s q).back := by
  unfold fio_mon_callback
  split
  · split
    · exact hp
    · show p ∉ s.back ++ [q]
      intro hmem
      rcases List.mem_append.mp hmem with hm | hm
      · exact hp hm
      · rw [List.mem_singleton] at hm
        exact hq hm.symm
  · exact hp

theorem callback_back_count (a : EfswAction) (s : MonState) (p q : String)
    (hq : q ≠ p) : (fio_mon_callback a s q).back.count p = s.back.count p := by
  unfold fio_mon_callback
  split
  · split
    · rfl
    · show (s.back ++ [q]).count p = s.back.count p
      rw [List.count_append, List.count_singleton]
      simp [hq]
  · rfl

theorem monRun_absent (reg : String → Bool) (evs : List MonEvent) :
    ∀ (s : MonState) (p : String), MonEvent.append p ∉ evs →
      p ∉ s.back → p ∉ s.front →
      (monRun reg s evs).log.count p = s.log.count p ∧
      p ∉ (monRun reg s evs).back ∧ p ∉ (monRun reg s evs).front := by
  induction evs with
  | nil => exact fun s p _ hb hf => ⟨rfl, hb, hf⟩
  | cons e rest ih =>
    intro s p hne hb hf
    have hne2 : MonEvent.append p ∉ rest := fun hm => hne (List.mem_cons_of_mem _ hm)
    cases e with
    | append q =>
      have hq : q ≠ p := by
        intro hqp
        subst hqp
        exact hne (List.mem_cons_self _ _)
      have h1 := ih (fio_mon_callback EfswAction.modified s q) p hne2
        (callback_back_absent _ _ _ _ hq hb) (by rw [callback_front]; exact hf)
      refine ⟨?_, h1.2.1, h1.2.2⟩
      show (monRun reg (fio_mon_callback EfswAction.modified s q) rest).log.count p =
        s.log.count p
      rw [h1.1, callback_log]
    | poll =>
      have hfz : (s.back.filter reg).count p = 0 :=
        List.count_eq_zero_of_not_mem (fun hm => hb (List.mem_of_mem_filter hm))
      have h1 := ih (fio_mon_update reg s) p hne2 (by show p ∉ s.front; exact hf)
        (by show p ∉ ([] : List String); simp)
      refine ⟨?_, h1.2.1, h1.2.2⟩
      show (monRun reg (fio_mon_update reg s) rest).log.count p = s.log.count p
      rw [h1.1]
      show (s.log ++ s.back.filter reg).count p = s.log.count p
      rw [List.count_append, hfz, Nat.add_zero]

theorem monRun_pending (reg : String → Bool) (evs : List MonEvent) :
    ∀ (s : MonState) (p : String), MonEvent.append p ∉ evs → MonEvent.poll ∈ evs →
      reg p = true → s.back.count p = 1 → p ∉ s.front →
      (monRun reg s evs).log.count p = s.log.count p + 1 ∧
      p ∉ (monRun reg s evs).back ∧ p ∉ (monRun reg s evs).front := by
  induction evs with
  | nil =>
    intro s p _ hpoll
    exact absurd hpoll (List.not_mem_nil _)
  | cons e rest ih =>
    intro s p hne hpoll hreg hcnt hf
    have hne2 : MonEvent.append p ∉ rest := fun hm => hne (List.mem_cons_of_mem _ hm)
    cases e with
    | append q =>
      have hq : q ≠ p := by
        intro hqp
        subst hqp
        exact hne (List.mem_cons_self _ _)
      have hpoll2 : MonEvent.poll ∈ rest := by
        rcases List.mem_cons.mp hpoll with h | h
        · exact absurd h (by simp)
        · exact h
      have hcnt2 : (fio_mon_callback EfswAction.modified s q).back.count p = 1 := by
        rw [callback_back_count _ _ _ _ hq]
        exact hcnt
      have h1 := ih (fio_mon_callback EfswAction.modified s q) p hne2 hpoll2 hreg hcnt2
        (by rw [callback_front]; exact hf)
      refine ⟨?_, h1.2.1, h1.2.2⟩
      show (monRun reg (fio_mon_callback EfswAction.modified s q) rest).log.count p =
        s.log.count p + 1
      rw [h1.1, callback_log]
    | poll =>
      have hfiltc : (s.back.filter reg).count p = s.back.count p :=
        List.count_filter hreg
      have h1 := monRun_absent reg rest (fio_mon_update reg s) p hne2
        (by show p ∉ s.front; exact hf) (by show p ∉ ([] : List String); simp)
      refine ⟨?_, h1.2.1, h1.2.2⟩
      show (monRun reg (fio_mon_update reg s) rest).log.count p = s.log.count p + 1
      rw [h1.1]
      show (s.log ++ s.back.filter reg).count p = s.log.count p + 1
      rw [List.count_append, hfiltc, hcnt]

/-- C4: along any interleaving of watcher appends and polls starting from
a fresh monitored directory, a registered path that is appended exactly
once and is followed by at least one poll is dispatched exactly once: it
appears in the dispatch log with multiplicity one — never lost, never
dispatched twice for that notification.  (Appends and the poll's
buffer swap are serialised by the directory mutex, and the poll's dispatch
loop only reads the front buffer, which appends never touch, so every
fine-grained interleaving coincides with such an event sequence; the other
events may append arbitrary other paths in arbitrary order.) -/
theorem monitor_exactly_once (reg : String → Bool) (p : String) (e1 e2 : List MonEvent)
    (hreg : reg p = true) (h1 : MonEvent.append p ∉ e1) (h2 : MonEvent.append p ∉ e2)
    (hpoll : MonEvent.poll ∈ e2) :
    ((monRun reg monInit (e1 ++ MonEvent.append p :: e2)).log).count p = 1 := by
  have ha := monRun_absent reg e1 monInit p h1 (by simp [monInit]) (by simp [monInit])
  have hsplit : monRun reg monInit (e1 ++ MonEvent.append p :: e2) =
      monRun reg (monStep reg (monRun reg monInit e1) (MonEvent.append p)) e2 := by
    simp [monRun, List.foldl_append]
  rw [hsplit]
  have hnotin : ¬(fio_find_file (monRun reg monInit e1).back p = true) :=
    fun hfind => ha.2.1 ((fio_find_file_iff _ _).mp hfind)
  have hstep : monStep reg (monRun reg monInit e1) (MonEvent.append p) =
      { monRun reg monInit e1 with back := (monRun reg monInit e1).back ++ [p] } := by
    show fio_mon_callback EfswAction.modified (monRun reg monInit e1) p = _
    unfold fio_mon_callback
    rw [if_pos (by simp), if_neg hnotin]
  rw [hstep]
  have hcnt : ({ monRun reg monInit e1 with
      back := (monRun reg monInit e1).back ++ [p] } : MonState).back.count p = 1 := by
    show ((monRun reg monInit e1).back ++ [p]).count p = 1
    rw [List.count_append, List.count_eq_zero_of_not_mem ha.2.1, List.count_singleton]
    simp
  have hp := monRun_pending reg e2 _ p h2 hpoll hreg hcnt
    (by show p ∉ (monRun reg monInit e1).front; exact ha.2.2)
  rw [hp.1]
  show (monRun reg monInit e1).log.count p + 1 = 1
  rw [ha.1]
  rfl

/-- Witness for `monitor_exactly_once`: path "a" appended once, followed
by one poll, is dispatched exactly once. -/
theorem monitor_exactly_once_witness :
    ((monRun (fun _ => true) monInit
      ([] ++ MonEvent.append "a" :: [MonEvent.poll])).log).count "a" = 1 :=
  monitor_exactly_once (fun _ => true) "a" [] [MonEvent.poll] rfl
    (by simp) (by simp) (by simp)

end Dhcore
